import Mathlib

/-!
Verification development for the `toa-particle-filter` repository
(cooperative time-of-arrival particle-filter localization).

The Rust source is shallowly embedded:
* `f64` scalars are modelled as exact rationals (`ℚ`) in the parts of the
  code that use only field and order operations (`normalize_weights`,
  `resample`), so that concrete runs can be evaluated by `decide`;
  they are modelled as reals (`ℝ`) in the parts that use `sqrt`/`exp`
  (`update_weights`, the motion model, the pairwise ranging loop of
  `Simulation::run`).
* The process-wide RNG is made explicit: every stochastic operation takes
  the draws it consumes as an argument.  A draw from `Normal(mu, sigma)`
  is modelled as `mu + sigma * z` with `z` the supplied standard-normal
  draw, exactly the affine reparametrization `rand_distr::Normal` uses.
* `Vec3` models `nalgebra::Vector3`.
-/

/-- A 3-component vector, modelling `nalgebra::Vector3`. -/
structure Vec3 (α : Type) where
  x : α
  y : α
  z : α
deriving DecidableEq, Repr

/-- One particle of the filter: `Particle { position, weight }` from
`agents/src/particle_filter.rs`. -/
structure Particle (α : Type) where
  position : Vec3 α
  weight : α
deriving DecidableEq, Repr

/-- The particle population: `ParticleFilter { particles: Vec<Particle> }`
from `agents/src/particle_filter.rs`. -/
structure ParticleFilter (α : Type) where
  particles : List (Particle α)
deriving DecidableEq, Repr

/-- Sum of all particle weights, as computed by the `par_iter().map(..).sum()`
reduction in `ParticleFilter::normalize_weights`. -/
def weightSum (pf : ParticleFilter ℚ) : ℚ :=
  (pf.particles.map Particle.weight).sum

/-- `ParticleFilter::normalize_weights` (particle_filter.rs:100-103):
every weight is divided by the total weight sum.  The Rust function is
infallible (it returns `()` and signals nothing); division is total here
as well.  Note the Rust code divides even when the sum is `0.0`
(producing `NaN`); in the rational model `w / 0 = 0`. -/
def normalize_weights (pf : ParticleFilter ℚ) : ParticleFilter ℚ :=
  let s := weightSum pf
  ⟨pf.particles.map (fun p => ⟨p.position, p.weight / s⟩)⟩

/-- The running cumulative-weight curve built by the `for p in
self.particles.iter()` loop of `ParticleFilter::resample`
(particle_filter.rs:131-136), starting from accumulator `acc`. -/
def cumWeights : List (Particle ℚ) → ℚ → List ℚ
  | [], _ => []
  | p :: ps, acc => (acc + p.weight) :: cumWeights ps (acc + p.weight)

/-- `if let Some(last) = cum_weights.last_mut() { *last = 1.0 }`
(particle_filter.rs:138-140): force the final cumulative entry to 1. -/
def setLastToOne : List ℚ → List ℚ
  | [] => []
  | [_] => [1]
  | a :: b :: rest => a :: setLastToOne (b :: rest)

/-- The cursor advance `while i + 1 < n && pos > cum_weights[i] { i += 1 }`
of `ParticleFilter::resample` (particle_filter.rs:146-148).  The loop
increments `i` while `i + 1 < n`, so it performs fewer than `n` steps;
`fuel = n` makes the recursion total without changing its result. -/
def advanceCursor (n : ℕ) (cum : List ℚ) (pos : ℚ) : ℕ → ℕ → ℕ
  | 0, i => i
  | fuel + 1, i =>
    if i + 1 < n ∧ cum.getD i 0 < pos then advanceCursor n cum pos fuel (i + 1)
    else i

/-- The selection loop `for pos in positions { ... if seen.insert(i) {
unique_draws.push(self.particles[i].clone()) } }` of
`ParticleFilter::resample` (particle_filter.rs:142-153).  `seen` models the
`HashSet` of already selected indices, `draws` the `unique_draws` vector. -/
def selectLoop (particles : List (Particle ℚ)) (n : ℕ) (cum : List ℚ) :
    List ℚ → ℕ → List ℕ → List (Particle ℚ) → List (Particle ℚ)
  | [], _, _, draws => draws
  | pos :: rest, i, seen, draws =>
    let i2 := advanceCursor n cum pos n i
    if i2 ∈ seen then selectLoop particles n cum rest i2 seen draws
    else
      match particles[i2]? with
      | some p => selectLoop particles n cum rest i2 (i2 :: seen) (draws ++ [p])
      | none => selectLoop particles n cum rest i2 (i2 :: seen) draws

/-- The selection phase of `ParticleFilter::resample`
(particle_filter.rs:122-153): the jittered draw points `u0 + j/n`, the
cumulative curve with its last entry forced to 1, and the deduplicating
selection loop.  `u0` is the value `rng.random::<f64>() / (n as f64)`,
supplied explicitly; the Rust RNG yields `u0 ∈ [0, 1/n)`. -/
def systematicSelect (u0 : ℚ) (pf : ParticleFilter ℚ) : List (Particle ℚ) :=
  let n := pf.particles.length
  let positions := (List.range n).map (fun j : ℕ => u0 + (j : ℚ) / (n : ℚ))
  let cum := setLastToOne (cumWeights pf.particles 0)
  selectLoop pf.particles n cum positions 0 [] []

/-- `ParticleFilter::resample` (particle_filter.rs:121-157): early return on
an empty population, systematic selection with index deduplication, then
`normalize_weights` on the selected particles. -/
def resample (u0 : ℚ) (pf : ParticleFilter ℚ) : ParticleFilter ℚ :=
  if pf.particles.length = 0 then pf
  else normalize_weights ⟨systematicSelect u0 pf⟩

/-- Modelled from the spec: the effective sample size `ESS = 1 / Σ(weight_i²)`
of section 4.3.  No ESS computation exists anywhere in the checked-in
sources (the `ParticleFilter::ess` method referenced by
`swarm_element.rs:120` is absent from `particle_filter.rs`). -/
def ess (pf : ParticleFilter ℚ) : ℚ :=
  1 / (pf.particles.map (fun p => p.weight * p.weight)).sum

namespace Vec3

/-- Componentwise vector addition (`nalgebra` `+`). -/
def add {α : Type} [Field α] (a b : Vec3 α) : Vec3 α :=
  ⟨a.x + b.x, a.y + b.y, a.z + b.z⟩

/-- Componentwise vector subtraction (`nalgebra` `-`). -/
def sub {α : Type} [Field α] (a b : Vec3 α) : Vec3 α :=
  ⟨a.x - b.x, a.y - b.y, a.z - b.z⟩

/-- Scalar multiplication (`nalgebra` `scalar * vector`). -/
def smul {α : Type} [Field α] (c : α) (v : Vec3 α) : Vec3 α :=
  ⟨c * v.x, c * v.y, c * v.z⟩

/-- Euclidean norm, `nalgebra`'s `.norm()`, with the square root supplied
as a function (instantiated with `Real.sqrt` in the theorems). -/
def normWith {α : Type} [Field α] (sqrt : α → α) (v : Vec3 α) : α :=
  sqrt (v.x * v.x + v.y * v.y + v.z * v.z)

end Vec3

/-- `ParticleFilter::update_weights` (particle_filter.rs:111-119): for each
particle, the predicted range to `pos`, the residual against the observed
`ranging`, the Gaussian likelihood `exp(-0.5 * err * err / var)` with
`var = sigma.powi(2)`, multiplied into the weight.  Positions are not
touched.  `sqrt` and `ex` are the two transcendental primitives the code
uses, supplied as functions (instantiated with `Real.sqrt` / `Real.exp`
in the theorems). -/
def update_weights {α : Type} [Field α] (sqrt ex : α → α)
    (pf : ParticleFilter α) (ranging : α) (pos : Vec3 α) (sigma : α) :
    ParticleFilter α :=
  let var := sigma ^ 2
  ⟨pf.particles.map (fun p =>
    let pred_range := Vec3.normWith sqrt (Vec3.sub p.position pos)
    let err := ranging - pred_range
    let lik := ex (-(1 / 2 : α) * err * err / var)
    ⟨p.position, p.weight * lik⟩)⟩

/-- `ParticleFilter::update_position` (particle_filter.rs:105-109): adds the
same `velocity` vector to every particle position and changes nothing else. -/
def update_position {α : Type} [Field α] (pf : ParticleFilter α)
    (velocity : Vec3 α) : ParticleFilter α :=
  ⟨pf.particles.map (fun p => ⟨Vec3.add p.position velocity, p.weight⟩)⟩

/-- `ParticleFilter::new` (particle_filter.rs:89-99): `num_particles`
particles, the k-th with position `enclosure.sample(rng)` (the successive
draws are supplied as `sample : ℕ → Vec3 α`) and weight
`1.0 / (num_particles as f64)`. -/
def ParticleFilter.new {α : Type} [Field α] (sample : ℕ → Vec3 α)
    (num_particles : ℕ) : ParticleFilter α :=
  ⟨(List.range num_particles).map
    (fun k => ⟨sample k, 1 / (num_particles : α)⟩)⟩

/-- Sum of all particle weights of a filter over any field. -/
def weightSumF {α : Type} [Field α] (pf : ParticleFilter α) : α :=
  (pf.particles.map Particle.weight).sum

/-- `WhiteNoiseAcceleration` (dynamics_model.rs:20-25): kinematic state plus
the per-axis `Normal(mean_a, sigma_a)` acceleration-noise parameters (the
`accel_noise` field stores one `Normal` per axis). -/
structure WhiteNoiseAcceleration (α : Type) where
  pos : Vec3 α
  vel : Vec3 α
  mean_a : Vec3 α
  sigma_a : Vec3 α

/-- One acceleration draw, one sample per axis from the per-axis
`Normal(mean, sigma)` distributions (dynamics_model.rs:62-66, 87-91).
`rand_distr::Normal` samples as `mean + sigma * z` with `z` standard
normal; `z` is the supplied draw. -/
def sampleAccel {α : Type} [Field α] (m : WhiteNoiseAcceleration α)
    (z : Vec3 α) : Vec3 α :=
  ⟨m.mean_a.x + m.sigma_a.x * z.x,
   m.mean_a.y + m.sigma_a.y * z.y,
   m.mean_a.z + m.sigma_a.z * z.z⟩

/-- `WhiteNoiseAcceleration::step` (dynamics_model.rs:61-70):
`pos += vel*dt + 0.5*a*dt*dt; vel += a*dt` with one fresh acceleration
draw `a`. -/
def WhiteNoiseAcceleration.step {α : Type} [Field α]
    (m : WhiteNoiseAcceleration α) (dt : α) (z : Vec3 α) :
    WhiteNoiseAcceleration α :=
  let a := sampleAccel m z
  { m with
    pos := Vec3.add m.pos (Vec3.add (Vec3.smul dt m.vel)
      (Vec3.smul ((1 / 2 : α) * dt * dt) a)),
    vel := Vec3.add m.vel (Vec3.smul dt a) }

/-- `WhiteNoiseAcceleration::predict_next_state` (dynamics_model.rs:80-93):
the same spatial update applied to an arbitrary position/velocity pair,
with a fresh acceleration draw; the model state is not mutated. -/
def WhiteNoiseAcceleration.predict_next_state {α : Type} [Field α]
    (m : WhiteNoiseAcceleration α) (dt : α) (position velocity : Vec3 α)
    (z : Vec3 α) : Vec3 α :=
  let a := sampleAccel m z
  Vec3.add position (Vec3.add (Vec3.smul dt velocity)
    (Vec3.smul ((1 / 2 : α) * dt * dt) a))

/-- Modelled from the spec: the per-particle recursion of
`ParticleFilter::predict_with_measured_velocity`, the filter's prediction
step.  That method is called by `SwarmElement::step`
(swarm_element.rs:94-106) but its definition is absent from the checked-in
`particle_filter.rs`.  Spec section 4.3, Predict: for every particle,
replace its position with `Motion.predict(dt, position, measured_velocity,
rng)`, the measured velocity being shared across the population and the
process-noise draw `z k` independent per particle; weights unchanged. -/
def predictList {α : Type} [Field α] (m : WhiteNoiseAcceleration α) (dt : α)
    (measured_velocity : Vec3 α) (z : ℕ → Vec3 α) :
    List (Particle α) → ℕ → List (Particle α)
  | [], _ => []
  | p :: ps, k =>
    ⟨m.predict_next_state dt p.position measured_velocity (z k), p.weight⟩ ::
      predictList m dt measured_velocity z ps (k + 1)

/-- Modelled from the spec: the prediction step applied to the whole
population (see `predictList`). -/
def predict_with_measured_velocity {α : Type} [Field α]
    (m : WhiteNoiseAcceleration α) (dt : α) (measured_velocity : Vec3 α)
    (z : ℕ → Vec3 α) (pf : ParticleFilter α) : ParticleFilter α :=
  ⟨predictList m dt measured_velocity z pf.particles 0⟩

/-- One agent as read by the pairwise ranging loop of `Simulation::run`:
its true position (`dynamics_model.position()`), its current estimate
`est_position`, its `ranging_noise` standard deviation
(`ranging_noise.std_dev()`), and its `particle_filter`
(swarm_element.rs:22-34). -/
structure SwarmElement (α : Type) where
  true_position : Vec3 α
  est_position : Vec3 α
  ranging_std : α
  particle_filter : ParticleFilter α

/-- The body of the pairwise loop of `Simulation::run` (simulation.rs:29-59)
for one ordered pair `(i, j)`: skip `i == j`; combine the two ranging-noise
variances into `combined_std = sqrt(var_rx + var_tx)`; synthesize
`ranging = se_i.ranging(&se_j, combined_std)` (swarm_element.rs:153-160:
true distance plus a `Normal(0, combined_std)` draw, modelled as
`combined_std * eps i j`); update agent `i`'s filter against agent `j`'s
`est_position` with that `combined_std`.  The `split_at_mut` dance in the
source only produces the two disjoint mutable references; semantically the
step reads `j` and writes `i`'s filter. -/
def pairStep {α : Type} [Field α] (sqrt ex : α → α) (eps : ℕ → ℕ → α)
    (s : List (SwarmElement α)) (i j : ℕ) : List (SwarmElement α) :=
  if i = j then s
  else
    match s[i]?, s[j]? with
    | some si, some sj =>
      let var_rx := si.ranging_std ^ 2
      let var_tx := sj.ranging_std ^ 2
      let combined_std := sqrt (var_rx + var_tx)
      let ranging :=
        Vec3.normWith sqrt (Vec3.sub si.true_position sj.true_position) +
          combined_std * eps i j
      let f2 :=
        update_weights sqrt ex si.particle_filter ranging
          sj.est_position combined_std
      s.set i { si with particle_filter := f2 }
    | _, _ => s

/-- The full pairwise phase of one timestep of `Simulation::run`
(simulation.rs:29-60): `for i in 0..len { for j in 0..len { ... } }` with
`len` the number of swarm elements. -/
def pairPhase {α : Type} [Field α] (sqrt ex : α → α) (eps : ℕ → ℕ → α)
    (s : List (SwarmElement α)) : List (SwarmElement α) :=
  (List.range s.length).foldl
    (fun acc i =>
      (List.range s.length).foldl
        (fun acc2 j => pairStep sqrt ex eps acc2 i j) acc)
    s

/-- The effect of one inner-loop iteration on agent `i`'s filter, with
every parameter read from the phase-initial state `s`: for `j ≠ i`, one
`update_weights` call whose sigma is the combined standard deviation
`sqrt(sigma_i² + sigma_j²)`, whose observation is the true distance plus a
`Normal(0, combined)` draw, and whose reference is agent `j`'s current
`est_position`. -/
def peerUpdate {α : Type} [Field α] (sqrt ex : α → α) (eps : ℕ → ℕ → α)
    (s : List (SwarmElement α)) (i j : ℕ) (f : ParticleFilter α) :
    ParticleFilter α :=
  if i = j then f
  else
    match s[i]?, s[j]? with
    | some si, some sj =>
      let combined_std := sqrt (si.ranging_std ^ 2 + sj.ranging_std ^ 2)
      update_weights sqrt ex f
        (Vec3.normWith sqrt (Vec3.sub si.true_position sj.true_position) +
          combined_std * eps i j)
        sj.est_position combined_std
    | _, _ => f

/-- The accumulated effect of the whole inner `j` loop on agent `i`'s
filter: the fold of `peerUpdate` over `j = 0 .. len-1` in the source's
loop order. -/
def peerFold {α : Type} [Field α] (sqrt ex : α → α) (eps : ℕ → ℕ → α)
    (s : List (SwarmElement α)) (i : ℕ) (f : ParticleFilter α) :
    ParticleFilter α :=
  (List.range s.length).foldl (fun g j => peerUpdate sqrt ex eps s i j g) f

/-- A 2-particle filter with normalized weights `(1, 0)`: the degenerate
weight vector of spec section 8. -/
def pfDegenerate : ParticleFilter ℚ :=
  ⟨[⟨⟨0, 0, 0⟩, 1⟩, ⟨⟨1, 1, 1⟩, 0⟩]⟩

/-- A 2-particle filter with normalized weights `(1/2, 1/2)`. -/
def pfUniform2 : ParticleFilter ℚ :=
  ⟨[⟨⟨0, 0, 0⟩, 1 / 2⟩, ⟨⟨1, 1, 1⟩, 1 / 2⟩]⟩

/-- A 2-particle filter with normalized weights `(9/10, 1/10)`: its
`ESS = 1/(81/100 + 1/100) = 50/41`, so `ESS / N = 25/41 ≥ 1/2`. -/
def pfConcentrated : ParticleFilter ℚ :=
  ⟨[⟨⟨0, 0, 0⟩, 9 / 10⟩, ⟨⟨1, 1, 1⟩, 1 / 10⟩]⟩

/-- A 2-particle filter with normalized but unequal weights `(3/5, 2/5)`. -/
def pfSkewed : ParticleFilter ℚ :=
  ⟨[⟨⟨0, 0, 0⟩, 3 / 5⟩, ⟨⟨2, 2, 2⟩, 2 / 5⟩]⟩

/-- Another 2-particle filter with normalized unequal weights `(3/5, 2/5)`. -/
def pfSkewed2 : ParticleFilter ℚ :=
  ⟨[⟨⟨1, 0, 0⟩, 3 / 5⟩, ⟨⟨0, 1, 0⟩, 2 / 5⟩]⟩

/-- A 2-particle filter all of whose weights are zero: every particle
weight collapsed, so the normalization sum is zero. -/
def pfAllZero : ParticleFilter ℚ :=
  ⟨[⟨⟨0, 0, 0⟩, 0⟩, ⟨⟨1, 2, 3⟩, 0⟩]⟩

/-- A concrete one-particle real-weight filter. -/
def pfOne : ParticleFilter ℝ :=
  ⟨[⟨⟨0, 0, 0⟩, 1⟩]⟩

/-- A concrete enclosure-sampling stream for witnesses: the k-th draw is
`(k, 0, 0)`. -/
def sampleLine : ℕ → Vec3 ℝ :=
  fun k => ⟨(k : ℝ), 0, 0⟩

/-- The filter entry of a swarm-element list at index `k` (empty filter
past the end). -/
def pfAt {α : Type} [Field α] (s : List (SwarmElement α)) (k : ℕ) :
    ParticleFilter α :=
  match s[k]? with
  | some e => e.particle_filter
  | none => ⟨[]⟩

/-- `t` agrees with `s` except that the filter of the agent at each index
`k` has been replaced by `F k`. -/
def filtersAssigned {α : Type} [Field α] (s t : List (SwarmElement α))
    (F : ℕ → ParticleFilter α) : Prop :=
  ∀ k : ℕ, t[k]? = (s[k]?).map (fun e => { e with particle_filter := F k })

theorem predictList_getElem {α : Type} [Field α] (m : WhiteNoiseAcceleration α)
    (dt : α) (v : Vec3 α) (z : ℕ → Vec3 α) :
    ∀ (ps : List (Particle α)) (k0 k : ℕ),
      (predictList m dt v z ps k0)[k]? = (ps[k]?).map (fun p =>
        ⟨m.predict_next_state dt p.position v (z (k0 + k)), p.weight⟩) := by
  intro ps
  induction ps with
  | nil => intro k0 k; simp [predictList]
  | cons p rest ih =>
    intro k0 k
    cases k with
    | zero => simp [predictList]
    | succ k =>
      simp only [predictList, List.getElem?_cons_succ, ih (k0 + 1) k,
        Nat.succ_add, Nat.add_succ]

theorem predictList_length {α : Type} [Field α] (m : WhiteNoiseAcceleration α)
    (dt : α) (v : Vec3 α) (z : ℕ → Vec3 α) :
    ∀ (ps : List (Particle α)) (k0 : ℕ),
      (predictList m dt v z ps k0).length = ps.length := by
  intro ps
  induction ps with
  | nil => intro k0; simp [predictList]
  | cons p rest ih => intro k0; simp [predictList, ih]

/-- C10: `ParticleFilter::update_position(v)` translates every particle's
position by the same vector `v` and changes nothing else: the population
size is unchanged and every particle keeps its weight. -/
theorem update_position_translates (pf : ParticleFilter ℝ) (v : Vec3 ℝ) :
    (update_position pf v).particles.length = pf.particles.length ∧
    ∀ k : ℕ, (update_position pf v).particles[k]? =
      (pf.particles[k]?).map (fun p => ⟨Vec3.add p.position v, p.weight⟩) := by
  refine ⟨by simp [update_position], fun k => ?_⟩
  simp [update_position, List.getElem?_map]

/-- C6: `ParticleFilter::update_weights(observed, reference, sigma)` with
nonzero `sigma` multiplies each particle's weight by exactly
`exp(-0.5 * (observed - d)^2 / sigma^2)`, where `d` is the Euclidean
distance from the particle to the reference, and moves no particle: the
output is the pointwise reweighting of the input list. -/
theorem update_weights_gaussian (pf : ParticleFilter ℝ) (ranging : ℝ)
    (pos : Vec3 ℝ) (sigma : ℝ) (hs : sigma ≠ 0) :
    (update_weights Real.sqrt Real.exp pf ranging pos sigma).particles =
      pf.particles.map (fun p =>
        ⟨p.position, p.weight *
          Real.exp (-(1 / 2) *
            (ranging - Vec3.normWith Real.sqrt (Vec3.sub p.position pos)) ^ 2 /
            sigma ^ 2)⟩) := by
  simp only [update_weights]
  refine List.map_congr_left (fun p _ => ?_)
  congr 2
  ring_nf

/-- Witness for C6 at a concrete one-particle filter and `sigma = 1`. -/
theorem update_weights_gaussian_witness :
    (1 : ℝ) ≠ 0 ∧
    (update_weights Real.sqrt Real.exp pfOne 2 ⟨0, 0, 0⟩ 1).particles =
      pfOne.particles.map (fun p =>
        ⟨p.position, p.weight *
          Real.exp (-(1 / 2) *
            (2 - Vec3.normWith Real.sqrt (Vec3.sub p.position ⟨0, 0, 0⟩)) ^ 2 /
            (1 : ℝ) ^ 2)⟩) :=
  ⟨one_ne_zero, update_weights_gaussian pfOne 2 ⟨0, 0, 0⟩ 1 one_ne_zero⟩

/-- C9: `WhiteNoiseAcceleration::step(dt)` draws one acceleration sample
per axis (`sampleAccel`, one `Normal(mean, sigma)` draw per axis) and
performs exactly `pos += vel*dt + 0.5*a*dt²` then `vel += a*dt`; with
`dt = 0` the state is unchanged for every state and noise parameters. -/
theorem step_kinematics (m : WhiteNoiseAcceleration ℝ) (dt : ℝ) (z : Vec3 ℝ) :
    ((m.step dt z).pos =
        Vec3.add m.pos (Vec3.add (Vec3.smul dt m.vel)
          (Vec3.smul ((1 / 2) * dt * dt) (sampleAccel m z))) ∧
      (m.step dt z).vel = Vec3.add m.vel (Vec3.smul dt (sampleAccel m z)) ∧
      (m.step dt z).mean_a = m.mean_a ∧
      (m.step dt z).sigma_a = m.sigma_a) ∧
    m.step 0 z = m := by
  refine ⟨⟨rfl, rfl, rfl, rfl⟩, ?_⟩
  cases m with
  | mk pos vel mean_a sigma_a =>
    cases pos
    cases vel
    simp [WhiteNoiseAcceleration.step, Vec3.add, Vec3.smul]

/-- C7: the filter's prediction step replaces every particle's position by
the motion model's spatial update `Motion.predict(dt, position,
measured_velocity, rng)`: the shared measured velocity scaled by `dt` plus
an independently drawn per-particle process-noise acceleration term
(`z k` for particle `k`), and keeps every weight.  The per-particle draw
makes the update non-deterministic across particles, not a shared
deterministic translation. -/
theorem predict_replaces_positions (m : WhiteNoiseAcceleration ℝ) (dt : ℝ)
    (v : Vec3 ℝ) (z : ℕ → Vec3 ℝ) (pf : ParticleFilter ℝ) :
    (predict_with_measured_velocity m dt v z pf).particles.length =
        pf.particles.length ∧
    ∀ k : ℕ, (predict_with_measured_velocity m dt v z pf).particles[k]? =
      (pf.particles[k]?).map (fun p =>
        ⟨Vec3.add p.position (Vec3.add (Vec3.smul dt v)
          (Vec3.smul ((1 / 2) * dt * dt) (sampleAccel m (z k)))), p.weight⟩) := by
  refine ⟨predictList_length m dt v z pf.particles 0, fun k => ?_⟩
  have h := predictList_getElem m dt v z pf.particles 0 k
  simpa [predict_with_measured_velocity,
    WhiteNoiseAcceleration.predict_next_state] using h

theorem list_sum_map_const {β : Type} (l : List β) (c : ℝ) :
    (l.map (fun _ => c)).sum = l.length • c := by
  induction l with
  | nil => simp
  | cons a t ih => simp [ih, succ_nsmul]; ring

/-- C8: `ParticleFilter::new(enclosure, N)` with `N ≥ 1` produces exactly
`N` particles, the k-th at the k-th enclosure draw with weight exactly
`1/N`, and the weights sum to exactly 1. -/
theorem new_uniform (sample : ℕ → Vec3 ℝ) (n : ℕ) (hn : 1 ≤ n) :
    (ParticleFilter.new sample n).particles.length = n ∧
    (∀ k : ℕ, k < n → (ParticleFilter.new sample n).particles[k]? =
      some ⟨sample k, 1 / (n : ℝ)⟩) ∧
    weightSumF (ParticleFilter.new sample n) = 1 := by
  refine ⟨by simp [ParticleFilter.new], fun k hk => ?_, ?_⟩
  · simp [ParticleFilter.new, List.getElem?_map, List.getElem?_range hk]
  · have hzero : (n : ℝ) ≠ 0 := Nat.cast_ne_zero.mpr (by omega)
    have hmap : (ParticleFilter.new sample n).particles.map Particle.weight =
        (List.range n).map (fun _ => 1 / (n : ℝ)) := by
      simp only [ParticleFilter.new, List.map_map]
      exact List.map_congr_left (fun a _ => rfl)
    rw [weightSumF, hmap, list_sum_map_const, List.length_range, nsmul_eq_mul]
    field_simp

/-- Witness for C8 at `N = 3` with a concrete sampling stream. -/
theorem new_uniform_witness :
    1 ≤ 3 ∧
    ((ParticleFilter.new sampleLine 3).particles.length = 3 ∧
    (∀ k : ℕ, k < 3 → (ParticleFilter.new sampleLine 3).particles[k]? =
      some ⟨sampleLine k, 1 / (3 : ℝ)⟩) ∧
    weightSumF (ParticleFilter.new sampleLine 3) = 1) :=
  ⟨by norm_num, new_uniform sampleLine 3 (by norm_num)⟩

/-- C4 (code bug): on a filter whose weights sum to zero,
`ParticleFilter::normalize_weights` has no error channel at all: it
silently divides every weight by the zero sum and returns normally (in
f64 this makes every weight `0.0/0.0 = NaN`; in the exact model
`w / 0 = 0`), leaving the weights degenerate: they still sum to 0, not 1,
and no degenerate-filter error is surfaced to the caller. -/
theorem normalize_weights_zero_sum_silent :
    weightSum pfAllZero = 0 ∧ normalize_weights pfAllZero = pfAllZero ∧
      weightSum (normalize_weights pfAllZero) ≠ 1 := by
  norm_num [pfAllZero, normalize_weights, weightSum]

theorem advanceCursor_lt (n : ℕ) (cum : List ℚ) (pos : ℚ) :
    ∀ (fuel i : ℕ), i < n → advanceCursor n cum pos fuel i < n := by
  intro fuel
  induction fuel with
  | zero => intro i hi; simpa [advanceCursor] using hi
  | succ f ih =>
    intro i hi
    simp only [advanceCursor]
    split
    next h => exact ih (i + 1) h.1
    next h => exact hi

theorem selectLoop_length_le (P : List (Particle ℚ)) (n : ℕ) (cum : List ℚ) :
    ∀ (positions : List ℚ) (i : ℕ) (seen : List ℕ)
      (draws : List (Particle ℚ)),
      (selectLoop P n cum positions i seen draws).length ≤
        draws.length + positions.length := by
  intro positions
  induction positions with
  | nil => intro i seen draws; simp [selectLoop]
  | cons pos rest ih =>
    intro i seen draws
    simp only [selectLoop, List.length_cons]
    split
    · have h := ih (advanceCursor n cum pos n i) seen draws
      omega
    · split
      next p heq =>
        have h := ih (advanceCursor n cum pos n i)
          (advanceCursor n cum pos n i :: seen) (draws ++ [p])
        simp only [List.length_append, List.length_cons, List.length_nil] at h
        omega
      next heq =>
        have h := ih (advanceCursor n cum pos n i)
          (advanceCursor n cum pos n i :: seen) draws
        omega

theorem selectLoop_length_ge (P : List (Particle ℚ)) (n : ℕ) (cum : List ℚ) :
    ∀ (positions : List ℚ) (i : ℕ) (seen : List ℕ)
      (draws : List (Particle ℚ)),
      draws.length ≤ (selectLoop P n cum positions i seen draws).length := by
  intro positions
  induction positions with
  | nil => intro i seen draws; simp [selectLoop]
  | cons pos rest ih =>
    intro i seen draws
    simp only [selectLoop]
    split
    · exact ih (advanceCursor n cum pos n i) seen draws
    · split
      next p heq =>
        have h := ih (advanceCursor n cum pos n i)
          (advanceCursor n cum pos n i :: seen) (draws ++ [p])
        simp only [List.length_append, List.length_cons, List.length_nil] at h
        omega
      next heq =>
        exact ih (advanceCursor n cum pos n i)
          (advanceCursor n cum pos n i :: seen) draws

theorem selectLoop_subset (P : List (Particle ℚ)) (n : ℕ) (cum : List ℚ) :
    ∀ (positions : List ℚ) (i : ℕ) (seen : List ℕ)
      (draws : List (Particle ℚ)) (q : Particle ℚ),
      q ∈ selectLoop P n cum positions i seen draws → q ∈ draws ∨ q ∈ P := by
  intro positions
  induction positions with
  | nil => intro i seen draws q hq; simp only [selectLoop] at hq; exact Or.inl hq
  | cons pos rest ih =>
    intro i seen draws q hq
    simp only [selectLoop] at hq
    split at hq
    · exact ih _ _ _ q hq
    · split at hq
      next p heq =>
        rcases ih _ _ _ q hq with hmem | hmem
        · rcases List.mem_append.mp hmem with hd | hp
          · exact Or.inl hd
          · obtain ⟨hlt, hEq⟩ := List.getElem?_eq_some.mp heq
            refine Or.inr ?_
            have := List.getElem_mem hlt
            rwa [hEq, ← List.mem_singleton.mp hp] at this
        · exact Or.inr hmem
      next heq => exact ih _ _ _ q hq

theorem normalize_weights_length (pf : ParticleFilter ℚ) :
    (normalize_weights pf).particles.length = pf.particles.length := by
  simp [normalize_weights]

theorem selectLoop_pos_of_cons (P : List (Particle ℚ)) (n : ℕ) (cum : List ℚ)
    (pos : ℚ) (rest : List ℚ) (hn : n = P.length) (h : 1 ≤ n) :
    1 ≤ (selectLoop P n cum (pos :: rest) 0 [] []).length := by
  have hlt : advanceCursor n cum pos n 0 < n :=
    advanceCursor_lt n cum pos n 0 (by omega)
  obtain ⟨p, hp⟩ : ∃ p, P[advanceCursor n cum pos n 0]? = some p := by
    subst hn
    exact ⟨_, List.getElem?_eq_getElem hlt⟩
  have hge := selectLoop_length_ge P n cum rest (advanceCursor n cum pos n 0)
    [advanceCursor n cum pos n 0] ([] ++ [p])
  simp only [selectLoop, List.not_mem_nil, if_false, hp,
    List.nil_append] at hge ⊢
  simpa using hge

theorem systematicSelect_length_pos (u0 : ℚ) (pf : ParticleFilter ℚ)
    (h : 1 ≤ pf.particles.length) : 1 ≤ (systematicSelect u0 pf).length := by
  obtain ⟨a, rest, hcons⟩ := List.exists_cons_of_ne_nil
    (l := (List.range pf.particles.length).map
      (fun j : ℕ => u0 + (j : ℚ) / (pf.particles.length : ℚ)))
    (fun hnil => by
      have hlen := congrArg List.length hnil
      simp only [List.length_map, List.length_range, List.length_nil] at hlen
      omega)
  simp only [systematicSelect, hcons]
  exact selectLoop_pos_of_cons _ _ _ _ _ rfl h

theorem systematicSelect_length_le (u0 : ℚ) (pf : ParticleFilter ℚ) :
    (systematicSelect u0 pf).length ≤ pf.particles.length := by
  have h := selectLoop_length_le pf.particles pf.particles.length
    (setLastToOne (cumWeights pf.particles 0))
    ((List.range pf.particles.length).map
      (fun j : ℕ => u0 + (j : ℚ) / (pf.particles.length : ℚ))) 0 [] []
  simp only [systematicSelect]
  simpa only [List.length_map, List.length_range, List.length_nil,
    Nat.zero_add] using h

/-- Counterexample to C1: this filter has 2 particles with normalized
weights `(1, 0)`, yet after `resample` (with `u0 = 0 ∈ [0, 1/2)`) it holds
only 1 particle: both draw points select index 0 and the `HashSet`
deduplication drops the repeat, so the population is not preserved. -/
theorem resample_shrinks_population :
    weightSum pfDegenerate = 1 ∧ pfDegenerate.particles.length = 2 ∧
      (resample 0 pfDegenerate).particles.length ≠ 2 := by
  norm_num [pfDegenerate, resample, systematicSelect, selectLoop,
    advanceCursor, cumWeights, setLastToOne, normalize_weights, weightSum,
    List.range_succ]

/-- C1 (amended): `resample` on a filter holding `N ≥ 1` particles leaves
between 1 and `N` particles; the count can drop below `N` because repeated
index selections are deduplicated. -/
theorem resample_count_bounds (u0 : ℚ) (pf : ParticleFilter ℚ)
    (h : 1 ≤ pf.particles.length) :
    1 ≤ (resample u0 pf).particles.length ∧
      (resample u0 pf).particles.length ≤ pf.particles.length := by
  rw [resample, if_neg (by omega)]
  refine ⟨?_, ?_⟩ <;> rw [normalize_weights_length]
  · exact systematicSelect_length_pos u0 pf h
  · exact systematicSelect_length_le u0 pf

/-- Witness for the amended C1 on a concrete uniform 2-particle filter. -/
theorem resample_count_bounds_witness :
    1 ≤ pfUniform2.particles.length ∧
      (1 ≤ (resample 0 pfUniform2).particles.length ∧
        (resample 0 pfUniform2).particles.length ≤
          pfUniform2.particles.length) :=
  ⟨by norm_num [pfUniform2],
    resample_count_bounds 0 pfUniform2 (by norm_num [pfUniform2])⟩

/-- Counterexample to C3: resampling this normalized filter with weights
`(3/5, 2/5)` and `u0 = 1/4` selects both particles, and the resulting
weights are `(3/5, 2/5)` — the survivors' old weights renormalized — not
the uniform `1/n = 1/2` the claim asserts: `resample` copies the old
weights and `normalize_weights` only rescales them. -/
theorem resample_weights_not_uniform :
    (resample (1 / 4) pfSkewed).particles.length = 2 ∧
      (resample (1 / 4) pfSkewed).particles.map Particle.weight =
        [3 / 5, 2 / 5] ∧
      (resample (1 / 4) pfSkewed).particles.map Particle.weight ≠
        List.replicate 2 (1 / 2 : ℚ) := by
  norm_num [pfSkewed, resample, systematicSelect, selectLoop, advanceCursor,
    cumWeights, setLastToOne, normalize_weights, weightSum, List.range_succ,
    List.replicate]

/-- C3 (amended): immediately after `resample` the filter holds exactly
the selected particles with their original positions, each weight equal to
its pre-resample weight divided by the sum of the selected particles'
pre-resample weights (so uniform `1/n` only when the survivors previously
had equal weights); every selected particle is one of the originals. -/
theorem resample_renormalizes_selected (u0 : ℚ) (pf : ParticleFilter ℚ)
    (h : ¬ pf.particles.length = 0) :
    (resample u0 pf).particles =
      (systematicSelect u0 pf).map (fun p =>
        ⟨p.position, p.weight /
          ((systematicSelect u0 pf).map Particle.weight).sum⟩) ∧
    ∀ q ∈ systematicSelect u0 pf, q ∈ pf.particles := by
  constructor
  · rw [resample, if_neg h]
    rfl
  · intro q hq
    have h2 := selectLoop_subset pf.particles pf.particles.length
      (setLastToOne (cumWeights pf.particles 0))
      ((List.range pf.particles.length).map
        (fun j : ℕ => u0 + (j : ℚ) / (pf.particles.length : ℚ)))
      0 [] [] q (by simpa [systematicSelect] using hq)
    simpa using h2

/-- Witness for the amended C3 on a concrete skewed 2-particle filter. -/
theorem resample_renormalizes_selected_witness :
    ¬ pfSkewed2.particles.length = 0 ∧
      ((resample (1 / 4) pfSkewed2).particles =
        (systematicSelect (1 / 4) pfSkewed2).map (fun p =>
          ⟨p.position, p.weight /
            ((systematicSelect (1 / 4) pfSkewed2).map Particle.weight).sum⟩) ∧
      ∀ q ∈ systematicSelect (1 / 4) pfSkewed2, q ∈ pfSkewed2.particles) :=
  ⟨by norm_num [pfSkewed2],
    resample_renormalizes_selected (1 / 4) pfSkewed2
      (by norm_num [pfSkewed2])⟩

/-- C2 (code bug): `Simulation::run` calls `resample` on every agent every
timestep unconditionally (simulation.rs:78); no effective sample size is
computed anywhere in the checked-in sources.  Concretely: this normalized
two-particle filter has `ESS/N = 25/41 ≥ tau` for the documented threshold
`tau = 1/2`, so by the spec the particle set must be retained unchanged,
yet `resample` still runs and even shrinks the population to one
particle. -/
theorem resample_ignores_ess_gate :
    weightSum pfConcentrated = 1 ∧
      (1 / 2 : ℚ) ≤ ess pfConcentrated / 2 ∧
      (resample 0 pfConcentrated).particles.length = 1 := by
  norm_num [pfConcentrated, resample, systematicSelect, selectLoop,
    advanceCursor, cumWeights, setLastToOne, normalize_weights, weightSum,
    ess, List.range_succ]

theorem filtersAssigned_congr {α : Type} [Field α]
    (s t : List (SwarmElement α)) (F G : ℕ → ParticleFilter α)
    (hFG : ∀ k, F k = G k) (h : filtersAssigned s t F) :
    filtersAssigned s t G := by
  intro k
  rw [h k, ← hFG k]

theorem filtersAssigned_refl {α : Type} [Field α]
    (s : List (SwarmElement α)) : filtersAssigned s s (pfAt s) := by
  intro k
  cases hk : s[k]? with
  | none => simp
  | some e => simp [pfAt, hk]

theorem pairStep_filters {α : Type} [Field α] (sqrt ex : α → α)
    (eps : ℕ → ℕ → α) (s t : List (SwarmElement α))
    (F : ℕ → ParticleFilter α) (i j : ℕ)
    (hF : filtersAssigned s t F) :
    filtersAssigned s (pairStep sqrt ex eps t i j)
      (fun k => if k = i then peerUpdate sqrt ex eps s i j (F k) else F k) := by
  intro k
  by_cases hij : i = j
  · subst hij
    have h1 : pairStep sqrt ex eps t i i = t := by simp [pairStep]
    have h2 : ∀ f, peerUpdate sqrt ex eps s i i f = f := fun f => by
      simp [peerUpdate]
    rw [h1]
    simp only [h2, ite_self]
    exact hF k
  · cases hti : t[i]? with
    | none =>
      have hsi : s[i]? = none := by
        have h0 := hF i
        rw [hti] at h0
        exact Option.map_eq_none.mp h0.symm
      have hps : pairStep sqrt ex eps t i j = t := by
        simp [pairStep, hij, hti]
      rw [hps]
      by_cases hk : k = i
      · subst hk
        rw [hti, hsi]
        simp
      · simp only [if_neg hk]
        exact hF k
    | some ti =>
      cases htj : t[j]? with
      | none =>
        have hsj : s[j]? = none := by
          have h0 := hF j
          rw [htj] at h0
          exact Option.map_eq_none.mp h0.symm
        have hps : pairStep sqrt ex eps t i j = t := by
          simp [pairStep, hij, hti, htj]
        have hpu : ∀ f, peerUpdate sqrt ex eps s i j f = f := fun f => by
          simp [peerUpdate, hij, hsj]
        rw [hps]
        simp only [hpu, ite_self]
        exact hF k
      | some tj =>
        have hi0 := hF i
        rw [hti] at hi0
        cases hsi : s[i]? with
        | none => rw [hsi] at hi0; simp at hi0
        | some si =>
          rw [hsi] at hi0
          simp only [Option.map_some'] at hi0
          have hj0 := hF j
          rw [htj] at hj0
          cases hsj : s[j]? with
          | none => rw [hsj] at hj0; simp at hj0
          | some sj =>
            rw [hsj] at hj0
            simp only [Option.map_some'] at hj0
            have hii := Option.some.inj hi0
            have hjj := Option.some.inj hj0
            subst hii
            subst hjj
            have hlt : i < t.length := (List.getElem?_eq_some.mp hti).1
            by_cases hk : k = i
            · subst hk
              rw [hsi]
              simp [pairStep, peerUpdate, hij, hti, htj, hsi, hsj,
                List.getElem?_set, hlt]
            · have hps : (pairStep sqrt ex eps t i j)[k]? = t[k]? := by
                simp [pairStep, hij, hti, htj,
                  List.getElem?_set_ne (fun h => hk h.symm)]
              rw [hps, hF k]
              simp [hk]

theorem innerFold_filters {α : Type} [Field α] (sqrt ex : α → α)
    (eps : ℕ → ℕ → α) (s : List (SwarmElement α)) (i : ℕ) :
    ∀ (js : List ℕ) (t : List (SwarmElement α)) (F : ℕ → ParticleFilter α),
      filtersAssigned s t F →
      filtersAssigned s
        (js.foldl (fun acc j => pairStep sqrt ex eps acc i j) t)
        (fun k => if k = i then
            js.foldl (fun f j => peerUpdate sqrt ex eps s i j f) (F k)
          else F k) := by
  intro js
  induction js with
  | nil =>
    intro t F hF
    simp only [List.foldl_nil]
    exact filtersAssigned_congr s t F _ (fun k => (ite_self (F k)).symm) hF
  | cons j js ih =>
    intro t F hF
    simp only [List.foldl_cons]
    have h1 := pairStep_filters sqrt ex eps s t F i j hF
    have h2 := ih (pairStep sqrt ex eps t i j) _ h1
    refine filtersAssigned_congr s _ _ _ (fun k => ?_) h2
    by_cases hk : k = i
    · subst hk
      simp
    · simp [hk]

theorem outerFold_filters {α : Type} [Field α] (sqrt ex : α → α)
    (eps : ℕ → ℕ → α) (s : List (SwarmElement α)) :
    ∀ (idxs : List ℕ) (t : List (SwarmElement α))
      (F : ℕ → ParticleFilter α),
      idxs.Nodup → filtersAssigned s t F →
      filtersAssigned s
        (idxs.foldl (fun acc i =>
          (List.range s.length).foldl
            (fun acc2 j => pairStep sqrt ex eps acc2 i j) acc) t)
        (fun k => if k ∈ idxs then
            (List.range s.length).foldl
              (fun f j => peerUpdate sqrt ex eps s k j f) (F k)
          else F k) := by
  intro idxs
  induction idxs with
  | nil =>
    intro t F _ hF
    simp only [List.foldl_nil]
    refine filtersAssigned_congr s t F _ (fun k => ?_) hF
    simp
  | cons i rest ih =>
    intro t F hnd hF
    simp only [List.foldl_cons]
    obtain ⟨hni, hnd2⟩ := List.nodup_cons.mp hnd
    have h1 := innerFold_filters sqrt ex eps s i (List.range s.length) t F hF
    have h2 := ih _ _ hnd2 h1
    refine filtersAssigned_congr s _ _ _ (fun k => ?_) h2
    by_cases hki : k = i
    · subst hki
      rw [if_neg hni, if_pos rfl, if_pos (List.mem_cons_self _ _)]
    · by_cases hkr : k ∈ rest
      · rw [if_pos hkr, if_neg hki, if_pos (List.mem_cons.mpr (Or.inr hkr))]
      · have hnotin : k ∉ i :: rest := by
          intro h
          rcases List.mem_cons.mp h with h1 | h2
          · exact hki h1
          · exact hkr h2
        rw [if_neg hkr, if_neg hki, if_neg hnotin]

/-- C5: in every timestep's pairwise phase of `Simulation::run`, for every
ordered pair of distinct agents `(i, j)` the scheduler combines the two
agents' ranging-noise variances into `combined_std = sqrt(sigma_i^2 +
sigma_j^2)`, synthesizes the range observation as the true distance plus a
`Normal(0, combined_std)` draw, and calls `update_weights` on agent `i`'s
filter with agent `j`'s current `est_position` (not `j`'s true position)
as the reference and that same `combined_std` as sigma: the phase leaves
every agent's entry unchanged except its filter, which receives exactly
the fold of those `peerUpdate` calls over all `j ≠ i` in loop order. -/
theorem pairPhase_cooperative (eps : ℕ → ℕ → ℝ)
    (s : List (SwarmElement ℝ)) (i : ℕ) :
    (pairPhase Real.sqrt Real.exp eps s)[i]? =
      (s[i]?).map (fun e =>
        { e with particle_filter := peerFold Real.sqrt Real.exp eps s i e.particle_filter }) := by
  have h := outerFold_filters Real.sqrt Real.exp eps s (List.range s.length)
    s (pfAt s) (List.nodup_range _) (filtersAssigned_refl s)
  have hi := h i
  cases hsi : s[i]? with
  | none =>
    rw [hsi] at hi
    rw [pairPhase]
    simpa using hi
  | some e =>
    have hlt : i < s.length := (List.getElem?_eq_some.mp hsi).1
    rw [hsi] at hi
    rw [pairPhase]
    simp only [Option.map_some'] at hi ⊢
    rw [hi]
    have hpf : pfAt s i = e.particle_filter := by simp [pfAt, hsi]
    rw [if_pos (List.mem_range.mpr hlt), hpf]
    rfl
